import Mathlib

/-!
Verification of the drivechain FFI bridge (src/src/bridge.rs) against its
natural-language specification.

The repository ships only the bridge layer: string/hex marshalling at the
FFI boundary plus delegation to an external engine crate.  The bridge layer
is embedded faithfully from the source.  The engine crate (block
connect/disconnect against the StateStore, the BMM attempt/confirm state
machine, the address codec) is not in the repository; those parts are
modelled from the specification and are marked `Modelled from the spec:` in
their doc comments.
-/

namespace DrivechainBridge

/-- A byte, kept as a `Nat` in the range `0..255` by construction of the
decoders. -/
abbrev Byte := Nat

/-- An outpoint key: the decoded byte string identifying a spendable unit. -/
abbrev Outpoint := List Nat

/-- A mainchain hash value, as decoded bytes. -/
abbrev Hash := List Nat

/-- Value of one hexadecimal digit, `none` for a non-hex character.
Embeds the digit handling of Rust `hex::decode`. -/
def hexVal (c : Char) : Option Nat :=
  if ('0' ≤ c ∧ c ≤ '9') then some (c.toNat - '0'.toNat)
  else if ('a' ≤ c ∧ c ≤ 'f') then some (c.toNat - 'a'.toNat + 10)
  else if ('A' ≤ c ∧ c ≤ 'F') then some (c.toNat - 'A'.toNat + 10)
  else none

/-- Hex-decode a character list two digits at a time; fails on odd length or
a non-hex character, like Rust `hex::decode`. -/
def hexDecodeChars : List Char → Option (List Nat)
  | [] => some []
  | [_] => none
  | c1 :: c2 :: rest =>
    match hexVal c1, hexVal c2, hexDecodeChars rest with
    | some h, some l, some bs => some ((16 * h + l) :: bs)
    | _, _, _ => none

/-- Embeds Rust `hex::decode` on a string. -/
def hexDecode (s : String) : Option (List Nat) :=
  hexDecodeChars s.data

/-- Embeds `BlockHash::from_str` / `TxMerkleNode::from_str`: a hash string
parses exactly when it is 64 hexadecimal digits. -/
def parseHash (s : String) : Option Hash :=
  if s.data.length = 64 then hexDecode s else none

namespace ffi

/-- FFI deposit output record (`ffi::Output` in bridge.rs). -/
structure Output where
  address : String
  amount : Nat
deriving DecidableEq, Repr

/-- FFI withdrawal record (`ffi::Withdrawal` in bridge.rs).  Note: it has no
height field; the caller cannot supply an inclusion height. -/
structure Withdrawal where
  outpoint : String
  main_address : String
  main_fee : Nat
  amount : Nat
deriving DecidableEq, Repr

/-- FFI refund record (`ffi::Refund` in bridge.rs). -/
structure Refund where
  outpoint : String
  amount : Nat
deriving DecidableEq, Repr

/-- FFI BMM state enum (`ffi::BMMState` in bridge.rs, spelling as in the
source). -/
inductive BMMState where
  | Succeded
  | Failed
  | Pending
deriving DecidableEq, Repr

end ffi

namespace drive

/-- Engine-side deposit record (`drive::Deposit`). -/
structure Deposit where
  address : String
  amount : Nat
deriving DecidableEq, Repr

/-- Engine-side withdrawal record (`drive::Withdrawal`): fixed 20-byte
destination, mainchain fee, amount and inclusion height. -/
structure Withdrawal where
  amount : Nat
  dest : List Nat
  mainchain_fee : Nat
  height : Nat
deriving DecidableEq, Repr

end drive

/-- Modelled from the spec: the StateStore tables — an append-only deposits
table, withdrawals and refunds tables keyed by outpoint, the spent-outpoint
set, and the height of the last connected block (the internal counter from
which inclusion heights are assigned). -/
structure StateStore where
  deposits : List drive.Deposit
  withdrawals : List (Outpoint × drive.Withdrawal)
  refunds : List (Outpoint × Nat)
  spentOutpoints : List Outpoint
  height : Nat
deriving DecidableEq, Repr

/-- The keys of an outpoint-keyed table. -/
def keysOf {α : Type} (l : List (Outpoint × α)) : List Outpoint :=
  l.map Prod.fst

/-- Engine-level error for block connection.  Modelled from the spec: a
conflicting (non-idempotent) mutation of the same outpoint fails the batch
with `DoubleSpend`. -/
inductive EngineError where
  | DoubleSpend
deriving DecidableEq, Repr

/-- Modelled from the spec: validity of a connect batch against the store.
Every withdrawal outpoint must be fresh (not already spent, not already in
the withdrawals table, and not also refunded in the same batch); every
refund outpoint must refer to an existing, spent, not-yet-refunded
withdrawal.  Any violation is a conflicting claim of an outpoint by two
different withdrawals/refunds, i.e. a double spend. -/
def connectValid (st : StateStore) (wm : List (Outpoint × drive.Withdrawal))
    (rm : List (Outpoint × Nat)) : Prop :=
  (∀ o ∈ keysOf wm, o ∉ keysOf rm ∧ o ∉ st.spentOutpoints ∧ o ∉ keysOf st.withdrawals) ∧
  (∀ o ∈ keysOf rm, o ∈ keysOf st.withdrawals ∧ o ∈ st.spentOutpoints ∧ o ∉ keysOf st.refunds)

instance (st : StateStore) (wm : List (Outpoint × drive.Withdrawal))
    (rm : List (Outpoint × Nat)) : Decidable (connectValid st wm rm) := by
  unfold connectValid; infer_instance

namespace drive

/-- Modelled from the spec: the engine `connect_block`.  Inside one
transaction it appends the deposits, inserts each withdrawal with the
inclusion height assigned internally (ignoring the caller-supplied height
field), records the refunds, and marks each withdrawal outpoint spent;
refund outpoints are already spent so their marking is a no-op.  A
conflicting outpoint claim fails the whole batch with `DoubleSpend` and the
store is left untouched.  With `just_check` set, validation runs in full and
the transaction is rolled back. -/
def connect_block (st : StateStore) (ds : List Deposit)
    (wm : List (Outpoint × Withdrawal)) (rm : List (Outpoint × Nat))
    (just_check : Bool) : Except EngineError StateStore :=
  if connectValid st wm rm then
    if just_check then .ok st
    else .ok
      { deposits := st.deposits ++ ds
        withdrawals := st.withdrawals ++ wm.map (fun p => (p.1, { p.2 with height := st.height + 1 }))
        refunds := st.refunds ++ rm
        spentOutpoints := st.spentOutpoints ++ keysOf wm
        height := st.height + 1 }
  else .error .DoubleSpend

/-- Modelled from the spec: the engine `disconnect_block`, the exact
inverse of `connect_block` — removes the trailing deposits, deletes the
named withdrawals (un-marking their spent outpoints, which reverts them to
unseen), deletes the named refunds, and retreats the height counter.  With
`just_check` set the transaction is rolled back. -/
def disconnect_block (st : StateStore) (ds : List Deposit)
    (wos ros : List Outpoint) (just_check : Bool) : Except EngineError StateStore :=
  if just_check then .ok st
  else .ok
    { deposits := st.deposits.take (st.deposits.length - ds.length)
      withdrawals := st.withdrawals.filter (fun p => decide (p.1 ∉ wos))
      refunds := st.refunds.filter (fun p => decide (p.1 ∉ ros))
      spentOutpoints := st.spentOutpoints.filter (fun o => decide (o ∉ wos))
      height := st.height - 1 }

end drive

/-- Modelled from the spec: the engine-side BMM attempt error — an attempt
anchored to a superseded block fails with `StaleAnchor`. -/
inductive BmmError where
  | StaleAnchor
deriving DecidableEq, Repr

/-- Modelled from the spec: the single outstanding BMM attempt tracked by
the engine — the submitted critical hash and the mainchain block it is
anchored to. -/
structure BmmAttempt where
  criticalHash : Hash
  prevMainBlockHash : Hash
deriving DecidableEq, Repr

/-- Modelled from the spec: the engine view of the mainchain tip used by
the BMM state machine — the tip hash, the hash of the block before the tip,
and the BMM commitment carried by the tip (if any). -/
structure MainView where
  tip : Hash
  tipPred : Hash
  tipCommitment : Option Hash
deriving DecidableEq, Repr

namespace drive

/-- Modelled from the spec: the engine `attempt_bmm` — broadcasts a
commitment of `criticalHash` anchored to `prevMainBlockHash`; fails with
`StaleAnchor` when the anchor is not the current recognized tip, and
otherwise records the attempt, superseding any prior unresolved one. -/
def attempt_bmm (bmm : Option BmmAttempt) (main : MainView)
    (criticalHash prevMainBlockHash : Hash) (amount : Nat) :
    Except BmmError (Option BmmAttempt) :=
  if prevMainBlockHash = main.tip then
    .ok (some { criticalHash := criticalHash, prevMainBlockHash := prevMainBlockHash })
  else .error .StaleAnchor

/-- Modelled from the spec: the engine `confirm_bmm` on the outstanding
attempt — still `Pending` while the tip has not advanced past the anchor;
`Succeded` when the new tip sits on the anchor and its commitment equals the
submitted critical hash; `Failed` when the tip advanced without a matching
commitment or the anchor was reorganized away. -/
def confirm_bmm (a : BmmAttempt) (main : MainView) : ffi.BMMState :=
  if main.tip = a.prevMainBlockHash then .Pending
  else if main.tipPred = a.prevMainBlockHash ∧ main.tipCommitment = some a.criticalHash then
    .Succeded
  else .Failed

/-- Modelled from the spec: the engine-side BMM verification error — the
commitment of the named block does not match, or the block cannot be looked
up. -/
inductive VerifyError where
  | mismatch
  | lookupFailure
deriving DecidableEq, Repr

end drive

/-- Error kinds raised at the FFI boundary or propagated from the engine.
In the source all of these are `miette` diagnostics; the constructors record
which boundary parse (or engine call) produced the failure. -/
inductive FfiError where
  | invalidHash
  | invalidHex
  | invalidAddress
  | engineBmm (e : BmmError)
deriving DecidableEq, Repr

/-- Outcome of an FFI call that may also abort the process: Rust
`copy_from_slice` on a slice of the wrong length panics, which neither
returns a value nor an error. -/
inductive FfiOutcome (α : Type) where
  | ok (a : α)
  | err (e : FfiError)
  | abort
deriving DecidableEq, Repr

/-- One `HashMap::insert`: replaces the value when the key is present
(last write wins), appends otherwise. -/
def hashMapInsert {α : Type} (k : Outpoint) (v : α) :
    List (Outpoint × α) → List (Outpoint × α)
  | [] => [(k, v)]
  | p :: rest => if p.1 = k then (k, v) :: rest else p :: hashMapInsert k v rest

/-- Embeds the withdrawal-marshalling loop of `connect_block` in bridge.rs
(lines 200-217): for each FFI withdrawal in order, hex-decode the
destination address (a decode failure is an error; a decoded length other
than 20 makes `copy_from_slice` panic), hex-decode the outpoint, and
collect the pairs into a `HashMap` keyed by outpoint with the engine-side
height field set to 0. -/
def marshalWithdrawalsAux (acc : List (Outpoint × drive.Withdrawal)) :
    List ffi.Withdrawal → FfiOutcome (List (Outpoint × drive.Withdrawal))
  | [] => .ok acc
  | w :: rest =>
    match hexDecode w.main_address with
    | none => .err .invalidHex
    | some addrBytes =>
      if addrBytes.length = 20 then
        match hexDecode w.outpoint with
        | none => .err .invalidHex
        | some op =>
          marshalWithdrawalsAux
            (hashMapInsert op
              { amount := w.amount, dest := addrBytes,
                mainchain_fee := w.main_fee, height := 0 } acc) rest
      else .abort

/-- The withdrawal marshalling starting from an empty map. -/
def marshalWithdrawals (ws : List ffi.Withdrawal) :
    FfiOutcome (List (Outpoint × drive.Withdrawal)) :=
  marshalWithdrawalsAux [] ws

/-- Embeds the refund-marshalling loop of `connect_block` in bridge.rs
(lines 219-227): hex-decode each outpoint and collect `(outpoint, amount)`
into a `HashMap`. -/
def marshalRefundsAux (acc : List (Outpoint × Nat)) :
    List ffi.Refund → FfiOutcome (List (Outpoint × Nat))
  | [] => .ok acc
  | r :: rest =>
    match hexDecode r.outpoint with
    | none => .err .invalidHex
    | some op => marshalRefundsAux (hashMapInsert op r.amount acc) rest

/-- The refund marshalling starting from an empty map. -/
def marshalRefunds (rs : List ffi.Refund) : FfiOutcome (List (Outpoint × Nat)) :=
  marshalRefundsAux [] rs

/-- Embeds the outpoint-list decoding of `disconnect_block` in bridge.rs
(lines 248-255): hex-decode every string, failing on the first malformed
one. -/
def decodeOutpoints : List String → Except FfiError (List Outpoint)
  | [] => .ok []
  | s :: rest =>
    match hexDecode s with
    | none => .error .invalidHex
    | some op =>
      match decodeOutpoints rest with
      | .ok ops => .ok (op :: ops)
      | .error e => .error e

/-- Embeds the deposit marshalling shared by `connect_block` and
`disconnect_block`: a field-for-field copy into `drive::Deposit`. -/
def marshalDeposits (ds : List ffi.Output) : List drive.Deposit :=
  ds.map (fun o => { address := o.address, amount := o.amount })

/-- Embeds `Drivechain::connect_block` in bridge.rs (lines 185-232):
marshal deposits, withdrawals and refunds, then call the engine; the engine
result is collapsed with `is_ok()` into a boolean, so an engine failure is
reported as `ok false` with the store untouched (the engine transaction
rolled back). -/
def bridgeConnectBlock (st : StateStore) (deposits : List ffi.Output)
    (withdrawals : List ffi.Withdrawal) (refunds : List ffi.Refund)
    (just_check : Bool) : FfiOutcome (Bool × StateStore) :=
  let ds := marshalDeposits deposits
  match marshalWithdrawals withdrawals with
  | .err e => .err e
  | .abort => .abort
  | .ok wm =>
    match marshalRefunds refunds with
    | .err e => .err e
    | .abort => .abort
    | .ok rm =>
      match drive.connect_block st ds wm rm just_check with
      | .ok st2 => .ok (true, st2)
      | .error _ => .ok (false, st)

/-- Embeds `Drivechain::disconnect_block` in bridge.rs (lines 234-265):
marshal deposits, hex-decode both outpoint lists, then call the engine;
the engine result is collapsed with `is_ok()` into a boolean. -/
def bridgeDisconnectBlock (st : StateStore) (deposits : List ffi.Output)
    (withdrawals refunds : List String) (just_check : Bool) :
    FfiOutcome (Bool × StateStore) :=
  let ds := marshalDeposits deposits
  match decodeOutpoints withdrawals with
  | .error e => .err e
  | .ok wos =>
    match decodeOutpoints refunds with
    | .error e => .err e
    | .ok ros =>
      match drive.disconnect_block st ds wos ros just_check with
      | .ok st2 => .ok (true, st2)
      | .error _ => .ok (false, st)

/-- Embeds `Drivechain::attempt_bmm` in bridge.rs (lines 133-146): parse
the critical hash, then the previous main block hash (either parse failure
is returned before the engine is touched), then delegate to the engine,
propagating an engine error. -/
def bridgeAttemptBmm (bmm : Option BmmAttempt) (main : MainView)
    (critical_hash prev_main_block_hash : String) (amount : Nat) :
    Except FfiError (Option BmmAttempt) :=
  match parseHash critical_hash with
  | none => .error .invalidHash
  | some ch =>
    match parseHash prev_main_block_hash with
    | none => .error .invalidHash
    | some ph =>
      match drive.attempt_bmm bmm main ch ph amount with
      | .ok b => .ok b
      | .error e => .error (.engineBmm e)

/-- Embeds `Drivechain::verify_bmm` in bridge.rs (lines 155-159): parse
both hash strings (a parse failure is an error), then collapse the engine
verification result with `is_ok()` into a boolean, so no engine-level
verification failure is ever surfaced as an error.  The engine verifier
itself is external; it is taken as a parameter. -/
def bridgeVerifyBmm (engineVerify : Hash → Hash → Except drive.VerifyError Unit)
    (main_block_hash critical_hash : String) : Except FfiError Bool :=
  match parseHash main_block_hash with
  | none => .error .invalidHash
  | some mbh =>
    match parseHash critical_hash with
    | none => .error .invalidHash
    | some ch =>
      match engineVerify mbh ch with
      | .ok _ => .ok true
      | .error _ => .ok false

/-- Embeds `Drivechain::is_outpoint_spent` in bridge.rs (lines 178-183):
hex-decode the outpoint (a decode failure is an error), then query the
spent set. -/
def bridgeIsOutpointSpent (st : StateStore) (outpoint : String) :
    Except FfiError Bool :=
  match hexDecode outpoint with
  | none => .error .invalidHex
  | some op => .ok (decide (op ∈ st.spentOutpoints))

/-- Modelled from the spec: one payload byte of the opaque mainchain
address codec, rendered as two characters drawn from a fixed 16-letter
alphabet. -/
def addrChar (n : Nat) : Char :=
  Char.ofNat ('a'.toNat + n)

/-- Modelled from the spec: the textual rendering of an address payload
under the opaque codec. -/
def encodeMainchainAddress (payload : List Nat) : String :=
  ⟨payload.foldr (fun b acc => addrChar (b / 16 % 16) :: addrChar (b % 16) :: acc) []⟩

/-- Modelled from the spec: value of one codec character, `none` for a
character outside the codec alphabet (such as the characters of
"invalid!!"). -/
def addrCharVal (c : Char) : Option Nat :=
  if 'a' ≤ c ∧ c ≤ 'p' then some (c.toNat - 'a'.toNat) else none

/-- Modelled from the spec: decoding of an address character list back into
the fixed-width payload; fails on any malformed string (a character outside
the alphabet, or a truncated byte). -/
def decodeAddrChars : List Char → Option (List Nat)
  | [] => some []
  | [_] => none
  | c1 :: c2 :: rest =>
    match addrCharVal c1, addrCharVal c2, decodeAddrChars rest with
    | some h, some l, some bs => some ((16 * h + l) :: bs)
    | _, _, _ => none

/-- Embeds `extract_mainchain_address_bytes` in bridge.rs (lines 299-303)
over the spec-modelled codec (the real parser, `bitcoin::Address::from_str`
plus the engine extractor, is external): a malformed address string fails
with `InvalidAddress`; a well-formed one yields its payload bytes. -/
def extract_mainchain_address_bytes (address : String) :
    Except FfiError (List Nat) :=
  match decodeAddrChars address.data with
  | none => .error .invalidAddress
  | some payload => .ok payload

/-- The store an FFI block operation leaves behind: the store carried by a
successful return, and the untouched input store when the call errored or
aborted before returning. -/
def FfiOutcome.stateOr (r : FfiOutcome (Bool × StateStore)) (st : StateStore) :
    StateStore :=
  match r with
  | .ok p => p.2
  | .err _ => st
  | .abort => st

/-! ### Helper lemmas about the marshalling layer -/

theorem mem_keysOf_hashMapInsert {α : Type} (k k2 : Outpoint) (v : α)
    (m : List (Outpoint × α)) :
    k2 ∈ keysOf (hashMapInsert k v m) ↔ k2 = k ∨ k2 ∈ keysOf m := by
  induction m with
  | nil => simp [hashMapInsert, keysOf]
  | cons p rest ih =>
    by_cases h : p.1 = k
    · simp only [hashMapInsert, if_pos h, keysOf, List.map_cons, List.mem_cons]
      rw [h]
      tauto
    · simp only [hashMapInsert, if_neg h, keysOf, List.map_cons, List.mem_cons]
      rw [keysOf] at ih
      rw [ih]
      tauto

theorem mem_hashMapInsert {α : Type} (k : Outpoint) (v : α)
    (m : List (Outpoint × α)) (p : Outpoint × α)
    (hp : p ∈ hashMapInsert k v m) : p = (k, v) ∨ p ∈ m := by
  induction m with
  | nil => simpa [hashMapInsert] using hp
  | cons q rest ih =>
    by_cases h : q.1 = k
    · simp only [hashMapInsert, if_pos h, List.mem_cons] at hp
      rcases hp with hp | hp
      · exact Or.inl hp
      · exact Or.inr (List.mem_cons_of_mem q hp)
    · simp only [hashMapInsert, if_neg h, List.mem_cons] at hp
      rcases hp with hp | hp
      · exact Or.inr (hp ▸ List.mem_cons_self q rest)
      · rcases ih hp with h2 | h2
        · exact Or.inl h2
        · exact Or.inr (List.mem_cons_of_mem q h2)

theorem marshalWithdrawalsAux_heights (ws : List ffi.Withdrawal) :
    ∀ acc m, marshalWithdrawalsAux acc ws = .ok m →
      (∀ p ∈ acc, p.2.height = 0) → ∀ p ∈ m, p.2.height = 0 := by
  induction ws with
  | nil =>
    intro acc m h hacc
    simp only [marshalWithdrawalsAux, FfiOutcome.ok.injEq] at h
    exact h ▸ hacc
  | cons w rest ih =>
    intro acc m h hacc
    unfold marshalWithdrawalsAux at h
    cases ha : hexDecode w.main_address with
    | none => simp [ha] at h
    | some ab =>
      simp only [ha] at h
      by_cases hl : ab.length = 20
      · rw [if_pos hl] at h
        cases ho : hexDecode w.outpoint with
        | none => simp [ho] at h
        | some op =>
          simp only [ho] at h
          refine ih _ _ h ?_
          intro p hp
          rcases mem_hashMapInsert _ _ _ _ hp with h2 | h2
          · rw [h2]
          · exact hacc p h2
      · rw [if_neg hl] at h
        exact absurd h (by simp)

theorem marshalWithdrawalsAux_keys (ws : List ffi.Withdrawal) :
    ∀ acc m, marshalWithdrawalsAux acc ws = .ok m →
      ∀ k, (k ∈ keysOf m ↔ k ∈ keysOf acc ∨ ∃ w ∈ ws, hexDecode w.outpoint = some k) := by
  induction ws with
  | nil =>
    intro acc m h k
    simp only [marshalWithdrawalsAux, FfiOutcome.ok.injEq] at h
    simp [← h]
  | cons w rest ih =>
    intro acc m h k
    unfold marshalWithdrawalsAux at h
    cases ha : hexDecode w.main_address with
    | none => simp [ha] at h
    | some ab =>
      simp only [ha] at h
      by_cases hl : ab.length = 20
      · rw [if_pos hl] at h
        cases ho : hexDecode w.outpoint with
        | none => simp [ho] at h
        | some op =>
          simp only [ho] at h
          rw [ih _ _ h k, mem_keysOf_hashMapInsert]
          simp only [List.mem_cons]
          constructor
          · rintro ((hk | hk) | hk)
            · exact Or.inr ⟨w, Or.inl rfl, hk ▸ ho⟩
            · exact Or.inl hk
            · rcases hk with ⟨w2, hw2, hk⟩
              exact Or.inr ⟨w2, Or.inr hw2, hk⟩
          · rintro (hk | ⟨w2, (hw2 | hw2), hk⟩)
            · exact Or.inl (Or.inr hk)
            · rw [hw2] at hk
              rw [ho] at hk
              exact Or.inl (Or.inl (Option.some.injEq _ _ ▸ hk).symm)
            · exact Or.inr ⟨w2, hw2, hk⟩
      · rw [if_neg hl] at h
        exact absurd h (by simp)

theorem marshalWithdrawalsAux_decodes (ws : List ffi.Withdrawal) :
    ∀ acc m, marshalWithdrawalsAux acc ws = .ok m →
      ∀ w ∈ ws, (∃ ab, hexDecode w.main_address = some ab ∧ ab.length = 20) ∧
        ∃ k, hexDecode w.outpoint = some k := by
  induction ws with
  | nil => intro acc m _ w hw; exact absurd hw (List.not_mem_nil w)
  | cons w rest ih =>
    intro acc m h w2 hw2
    unfold marshalWithdrawalsAux at h
    cases ha : hexDecode w.main_address with
    | none => simp [ha] at h
    | some ab =>
      simp only [ha] at h
      by_cases hl : ab.length = 20
      · rw [if_pos hl] at h
        cases ho : hexDecode w.outpoint with
        | none => simp [ho] at h
        | some op =>
          simp only [ho] at h
          rcases List.mem_cons.mp hw2 with hw2 | hw2
          · exact hw2 ▸ ⟨⟨ab, ha, hl⟩, op, ho⟩
          · exact ih _ _ h w2 hw2
      · rw [if_neg hl] at h
        exact absurd h (by simp)

theorem marshalRefundsAux_keys (rs : List ffi.Refund) :
    ∀ acc m, marshalRefundsAux acc rs = .ok m →
      ∀ k, (k ∈ keysOf m ↔ k ∈ keysOf acc ∨ ∃ r ∈ rs, hexDecode r.outpoint = some k) := by
  induction rs with
  | nil =>
    intro acc m h k
    simp only [marshalRefundsAux, FfiOutcome.ok.injEq] at h
    simp [← h]
  | cons r rest ih =>
    intro acc m h k
    unfold marshalRefundsAux at h
    cases ho : hexDecode r.outpoint with
    | none => simp [ho] at h
    | some op =>
      simp only [ho] at h
      rw [ih _ _ h k, mem_keysOf_hashMapInsert]
      simp only [List.mem_cons]
      constructor
      · rintro ((hk | hk) | hk)
        · exact Or.inr ⟨r, Or.inl rfl, hk ▸ ho⟩
        · exact Or.inl hk
        · rcases hk with ⟨r2, hr2, hk⟩
          exact Or.inr ⟨r2, Or.inr hr2, hk⟩
      · rintro (hk | ⟨r2, (hr2 | hr2), hk⟩)
        · exact Or.inl (Or.inr hk)
        · rw [hr2] at hk
          rw [ho] at hk
          exact Or.inl (Or.inl (Option.some.injEq _ _ ▸ hk).symm)
        · exact Or.inr ⟨r2, hr2, hk⟩

theorem marshalRefundsAux_decodes (rs : List ffi.Refund) :
    ∀ acc m, marshalRefundsAux acc rs = .ok m →
      ∀ r ∈ rs, ∃ k, hexDecode r.outpoint = some k := by
  induction rs with
  | nil => intro acc m _ r hr; exact absurd hr (List.not_mem_nil r)
  | cons r rest ih =>
    intro acc m h r2 hr2
    unfold marshalRefundsAux at h
    cases ho : hexDecode r.outpoint with
    | none => simp [ho] at h
    | some op =>
      simp only [ho] at h
      rcases List.mem_cons.mp hr2 with hr2 | hr2
      · exact hr2 ▸ ⟨op, ho⟩
      · exact ih _ _ h r2 hr2

theorem decodeOutpoints_ok (l : List String)
    (h : ∀ s ∈ l, ∃ k, hexDecode s = some k) :
    ∃ os, decodeOutpoints l = .ok os ∧
      ∀ k, (k ∈ os ↔ ∃ s ∈ l, hexDecode s = some k) := by
  induction l with
  | nil => exact ⟨[], rfl, by simp⟩
  | cons s rest ih =>
    rcases h s (List.mem_cons_self s rest) with ⟨k0, hk0⟩
    rcases ih (fun s2 hs2 => h s2 (List.mem_cons_of_mem s hs2)) with ⟨os, hos, hmem⟩
    refine ⟨k0 :: os, ?_, ?_⟩
    · unfold decodeOutpoints
      simp only [hk0, hos]
    · intro k
      simp only [List.mem_cons]
      constructor
      · rintro (hk | hk)
        · exact ⟨s, Or.inl rfl, hk ▸ hk0⟩
        · rcases (hmem k).mp hk with ⟨s2, hs2, hk2⟩
          exact ⟨s2, Or.inr hs2, hk2⟩
      · rintro ⟨s2, (hs2 | hs2), hk2⟩
        · rw [hs2] at hk2
          rw [hk0] at hk2
          exact Or.inl (Option.some.injEq _ _ ▸ hk2).symm
        · exact Or.inr ((hmem k).mpr ⟨s2, hs2, hk2⟩)

theorem decodeOutpoints_err (l : List String)
    (h : ∃ s ∈ l, hexDecode s = none) :
    decodeOutpoints l = .error .invalidHex := by
  induction l with
  | nil => simp at h
  | cons s rest ih =>
    rcases h with ⟨s2, hs2, hdec⟩
    rcases List.mem_cons.mp hs2 with hs2 | hs2
    · unfold decodeOutpoints
      rw [hs2] at hdec
      rw [hdec]
    · unfold decodeOutpoints
      cases hd : hexDecode s with
      | none => rfl
      | some op => simp only [ih ⟨s2, hs2, hdec⟩]

theorem marshalWithdrawalsAux_ok_of_decodes (ws : List ffi.Withdrawal) :
    ∀ acc, (∀ w ∈ ws, (∃ ab, hexDecode w.main_address = some ab ∧ ab.length = 20) ∧
        ∃ k, hexDecode w.outpoint = some k) →
      ∃ m, marshalWithdrawalsAux acc ws = .ok m := by
  induction ws with
  | nil => intro acc _; exact ⟨acc, rfl⟩
  | cons w rest ih =>
    intro acc h
    rcases h w (List.mem_cons_self w rest) with ⟨⟨ab, ha, hl⟩, op, ho⟩
    unfold marshalWithdrawalsAux
    simp only [ha, if_pos hl, ho]
    exact ih _ (fun w2 hw2 => h w2 (List.mem_cons_of_mem w hw2))

theorem marshalWithdrawalsAux_err (ws : List ffi.Withdrawal)
    (hprov : ∀ w ∈ ws, ∀ ab, hexDecode w.main_address = some ab → ab.length = 20)
    (hbad : ∃ w ∈ ws, hexDecode w.outpoint = none ∨ hexDecode w.main_address = none) :
    ∀ acc, marshalWithdrawalsAux acc ws = .err .invalidHex := by
  induction ws with
  | nil => simp at hbad
  | cons w rest ih =>
    intro acc
    unfold marshalWithdrawalsAux
    cases ha : hexDecode w.main_address with
    | none => rfl
    | some ab =>
      have hl : ab.length = 20 := hprov w (List.mem_cons_self w rest) ab ha
      simp only [if_pos hl]
      cases ho : hexDecode w.outpoint with
      | none => rfl
      | some op =>
        have hbad2 : ∃ w2 ∈ rest, hexDecode w2.outpoint = none ∨ hexDecode w2.main_address = none := by
          rcases hbad with ⟨w2, hw2, hmal⟩
          rcases List.mem_cons.mp hw2 with hw2 | hw2
          · subst hw2
            rcases hmal with hmal | hmal
            · rw [ho] at hmal; exact absurd hmal (by simp)
            · rw [ha] at hmal; exact absurd hmal (by simp)
          · exact ⟨w2, hw2, hmal⟩
        exact ih (fun w2 hw2 => hprov w2 (List.mem_cons_of_mem w hw2)) hbad2 _

theorem marshalWithdrawalsAux_abort (pre : List ffi.Withdrawal)
    (w : ffi.Withdrawal) (post : List ffi.Withdrawal) (ab : List Nat)
    (hpre : ∀ w2 ∈ pre, (∃ ab2, hexDecode w2.main_address = some ab2 ∧ ab2.length = 20) ∧
      ∃ k, hexDecode w2.outpoint = some k)
    (ha : hexDecode w.main_address = some ab) (hl : ab.length ≠ 20) :
    ∀ acc, marshalWithdrawalsAux acc (pre ++ w :: post) = .abort := by
  induction pre with
  | nil =>
    intro acc
    unfold marshalWithdrawalsAux
    simp only [List.nil_append, ha, if_neg hl]
  | cons w2 rest ih =>
    intro acc
    rcases hpre w2 (List.mem_cons_self w2 rest) with ⟨⟨ab2, ha2, hl2⟩, op2, ho2⟩
    unfold marshalWithdrawalsAux
    simp only [List.cons_append, ha2, if_pos hl2, ho2]
    exact ih (fun w3 hw3 => hpre w3 (List.mem_cons_of_mem w2 hw3)) _

theorem marshalRefundsAux_ok_of_decodes (rs : List ffi.Refund) :
    ∀ acc, (∀ r ∈ rs, ∃ k, hexDecode r.outpoint = some k) →
      ∃ m, marshalRefundsAux acc rs = .ok m := by
  induction rs with
  | nil => intro acc _; exact ⟨acc, rfl⟩
  | cons r rest ih =>
    intro acc h
    rcases h r (List.mem_cons_self r rest) with ⟨op, ho⟩
    unfold marshalRefundsAux
    simp only [ho]
    exact ih _ (fun r2 hr2 => h r2 (List.mem_cons_of_mem r hr2))

theorem marshalRefundsAux_err (rs : List ffi.Refund)
    (hbad : ∃ r ∈ rs, hexDecode r.outpoint = none) :
    ∀ acc, marshalRefundsAux acc rs = .err .invalidHex := by
  induction rs with
  | nil => simp at hbad
  | cons r rest ih =>
    intro acc
    unfold marshalRefundsAux
    cases ho : hexDecode r.outpoint with
    | none => rfl
    | some op =>
      have hbad2 : ∃ r2 ∈ rest, hexDecode r2.outpoint = none := by
        rcases hbad with ⟨r2, hr2, hmal⟩
        rcases List.mem_cons.mp hr2 with hr2 | hr2
        · subst hr2; rw [ho] at hmal; exact absurd hmal (by simp)
        · exact ⟨r2, hr2, hmal⟩
      exact ih hbad2 _

/-! ### Engine-level invertibility -/

theorem drive.connect_then_disconnect (st st2 : StateStore)
    (ds ds2 : List drive.Deposit) (wm : List (Outpoint × drive.Withdrawal))
    (rm : List (Outpoint × Nat)) (wos ros : List Outpoint)
    (hlen : ds2.length = ds.length)
    (hwos : ∀ k, k ∈ wos ↔ k ∈ keysOf wm)
    (hros : ∀ k, k ∈ ros ↔ k ∈ keysOf rm)
    (hconn : drive.connect_block st ds wm rm false = .ok st2) :
    drive.disconnect_block st2 ds2 wos ros false = .ok st := by
  unfold drive.connect_block at hconn
  by_cases hv : connectValid st wm rm
  · rw [if_pos hv] at hconn
    simp only [Bool.false_eq_true, if_false, Except.ok.injEq] at hconn
    subst hconn
    unfold drive.disconnect_block
    simp only [Bool.false_eq_true, if_false, Except.ok.injEq]
    have hdep : (st.deposits ++ ds).take ((st.deposits ++ ds).length - ds2.length)
        = st.deposits := by
      rw [List.length_append, hlen, Nat.add_sub_cancel, List.take_left]
    have hw : (st.withdrawals ++ wm.map (fun (p : Outpoint × drive.Withdrawal) =>
        (p.1, { p.2 with height := st.height + 1 }))).filter
        (fun p => decide (p.1 ∉ wos)) = st.withdrawals := by
      rw [List.filter_append]
      have h1 : st.withdrawals.filter (fun p => decide (p.1 ∉ wos)) = st.withdrawals := by
        rw [List.filter_eq_self]
        intro p hp
        simp only [decide_eq_true_eq]
        intro hmem
        have := (hv.1 p.1 ((hwos p.1).mp hmem)).2.2
        exact this (List.mem_map_of_mem Prod.fst hp)
      have h2 : (wm.map (fun (p : Outpoint × drive.Withdrawal) =>
          (p.1, { p.2 with height := st.height + 1 }))).filter
          (fun p => decide (p.1 ∉ wos)) = [] := by
        rw [List.filter_eq_nil_iff]
        intro p hp
        simp only [decide_eq_true_eq, Decidable.not_not]
        rcases List.mem_map.mp hp with ⟨q, hq, hpq⟩
        rw [← hpq]
        exact (hwos q.1).mpr (List.mem_map_of_mem Prod.fst hq)
      rw [h1, h2, List.append_nil]
    have hr : (st.refunds ++ rm).filter (fun p => decide (p.1 ∉ ros)) = st.refunds := by
      rw [List.filter_append]
      have h1 : st.refunds.filter (fun p => decide (p.1 ∉ ros)) = st.refunds := by
        rw [List.filter_eq_self]
        intro p hp
        simp only [decide_eq_true_eq]
        intro hmem
        have := (hv.2 p.1 ((hros p.1).mp hmem)).2.2
        exact this (List.mem_map_of_mem Prod.fst hp)
      have h2 : rm.filter (fun p => decide (p.1 ∉ ros)) = [] := by
        rw [List.filter_eq_nil_iff]
        intro p hp
        simp only [decide_eq_true_eq, Decidable.not_not]
        exact (hros p.1).mpr (List.mem_map_of_mem Prod.fst hp)
      rw [h1, h2, List.append_nil]
    have hs : (st.spentOutpoints ++ keysOf wm).filter (fun o => decide (o ∉ wos))
        = st.spentOutpoints := by
      rw [List.filter_append]
      have h1 : st.spentOutpoints.filter (fun o => decide (o ∉ wos)) = st.spentOutpoints := by
        rw [List.filter_eq_self]
        intro o ho
        simp only [decide_eq_true_eq]
        intro hmem
        exact (hv.1 o ((hwos o).mp hmem)).2.1 ho
      have h2 : (keysOf wm).filter (fun o => decide (o ∉ wos)) = [] := by
        rw [List.filter_eq_nil_iff]
        intro o ho
        simp only [decide_eq_true_eq, Decidable.not_not]
        exact (hwos o).mpr ho
      rw [h1, h2, List.append_nil]
    simp only [hdep, hw, hr, hs, Nat.add_sub_cancel]
  · rw [if_neg hv] at hconn
    exact absurd hconn (by simp)

/-- The engine connect in dry-run mode always returns the untouched store
or fails. -/
theorem drive.connect_block_dry_run (st : StateStore) (ds : List drive.Deposit)
    (wm : List (Outpoint × drive.Withdrawal)) (rm : List (Outpoint × Nat)) :
    drive.connect_block st ds wm rm true = .ok st ∨
    drive.connect_block st ds wm rm true = .error .DoubleSpend := by
  unfold drive.connect_block
  by_cases hv : connectValid st wm rm
  · rw [if_pos hv]
    exact Or.inl rfl
  · rw [if_neg hv]
    exact Or.inr rfl

/-! ### Claim theorems -/

/-- C8: for every batch, valid or invalid, `connect_block` with
`just_check` (dry run) set leaves the persisted state unchanged — the call
either errors or aborts before the engine, or the engine validates and
rolls back, always handing back the original store. -/
theorem connect_block_dry_run_preserves_state (st : StateStore)
    (deposits : List ffi.Output) (withdrawals : List ffi.Withdrawal)
    (refunds : List ffi.Refund) :
    (bridgeConnectBlock st deposits withdrawals refunds true).stateOr st = st := by
  simp only [bridgeConnectBlock]
  cases hmw : marshalWithdrawals withdrawals with
  | err e => rfl
  | abort => rfl
  | ok wm =>
    cases hmr : marshalRefunds refunds with
    | err e => rfl
    | abort => rfl
    | ok rm =>
      show (match drive.connect_block st (marshalDeposits deposits) wm rm true with
        | Except.ok st2 => FfiOutcome.ok (true, st2)
        | Except.error e => FfiOutcome.ok (false, st)).stateOr st = st
      rcases drive.connect_block_dry_run st (marshalDeposits deposits) wm rm with hc | hc
      · rw [hc]
        rfl
      · rw [hc]
        rfl

/-- C1: whenever `connect_block` applies a batch (returns `true`), calling
`disconnect_block` with the same deposits and the outpoint strings of the
withdrawals and refunds of that batch restores the StateStore exactly —
all three tables, the spent-outpoint set and the height counter. -/
theorem connect_block_disconnect_block_inverse (st st2 : StateStore)
    (deposits : List ffi.Output) (withdrawals : List ffi.Withdrawal)
    (refunds : List ffi.Refund)
    (h : bridgeConnectBlock st deposits withdrawals refunds false = .ok (true, st2)) :
    bridgeDisconnectBlock st2 deposits (withdrawals.map ffi.Withdrawal.outpoint)
      (refunds.map ffi.Refund.outpoint) false = .ok (true, st) := by
  simp only [bridgeConnectBlock] at h
  cases hmw : marshalWithdrawals withdrawals with
  | err e => simp [hmw] at h
  | abort => simp [hmw] at h
  | ok wm =>
    simp only [hmw] at h
    cases hmr : marshalRefunds refunds with
    | err e => simp [hmr] at h
    | abort => simp [hmr] at h
    | ok rm =>
      simp only [hmr] at h
      cases hc : drive.connect_block st (marshalDeposits deposits) wm rm false with
      | error e => simp [hc] at h
      | ok st3 =>
        simp only [hc, FfiOutcome.ok.injEq, Prod.mk.injEq, true_and] at h
        subst h
        have hwdec := marshalWithdrawalsAux_decodes withdrawals [] wm hmw
        have hrdec := marshalRefundsAux_decodes refunds [] rm hmr
        obtain ⟨wos, hwos, hwmem⟩ :=
          decodeOutpoints_ok (withdrawals.map ffi.Withdrawal.outpoint) (by
            intro s hs
            rcases List.mem_map.mp hs with ⟨w, hw, hws⟩
            exact hws ▸ (hwdec w hw).2)
        obtain ⟨ros, hros, hrmem⟩ :=
          decodeOutpoints_ok (refunds.map ffi.Refund.outpoint) (by
            intro s hs
            rcases List.mem_map.mp hs with ⟨r, hr, hrs⟩
            exact hrs ▸ hrdec r hr)
        have hwkeys : ∀ k, k ∈ wos ↔ k ∈ keysOf wm := by
          intro k
          rw [hwmem k, marshalWithdrawalsAux_keys withdrawals [] wm hmw k]
          simp only [keysOf, List.map_nil, List.not_mem_nil, false_or]
          constructor
          · rintro ⟨s, hs, hk⟩
            rcases List.mem_map.mp hs with ⟨w, hw, hws⟩
            exact ⟨w, hw, hws ▸ hk⟩
          · rintro ⟨w, hw, hk⟩
            exact ⟨w.outpoint, List.mem_map_of_mem ffi.Withdrawal.outpoint hw, hk⟩
        have hrkeys : ∀ k, k ∈ ros ↔ k ∈ keysOf rm := by
          intro k
          rw [hrmem k, marshalRefundsAux_keys refunds [] rm hmr k]
          simp only [keysOf, List.map_nil, List.not_mem_nil, false_or]
          constructor
          · rintro ⟨s, hs, hk⟩
            rcases List.mem_map.mp hs with ⟨r, hr, hrs⟩
            exact ⟨r, hr, hrs ▸ hk⟩
          · rintro ⟨r, hr, hk⟩
            exact ⟨r.outpoint, List.mem_map_of_mem ffi.Refund.outpoint hr, hk⟩
        have hdisc := drive.connect_then_disconnect st st3 (marshalDeposits deposits)
          (marshalDeposits deposits) wm rm wos ros rfl hwkeys hrkeys hc
        simp only [bridgeDisconnectBlock, hwos, hros, hdisc]

/-- The empty store used by the concrete checks. -/
def sampleStore0 : StateStore := ⟨[], [], [], [], 0⟩

/-- A well-formed 20-byte destination address in hex. -/
def sampleAddr20 : String := "0101010101010101010101010101010101010101"

/-- The decoded bytes of `sampleAddr20`. -/
def sampleDest : List Nat := List.replicate 20 1

/-- The store after connecting one deposit and one withdrawal (outpoint
"aa") to the empty store. -/
def sampleStore1 : StateStore :=
  ⟨[⟨"sc1abc", 500000⟩],
   [([170], ⟨5, sampleDest, 1, 1⟩)],
   [], [[170]], 1⟩

/-- Witness for C1 at a concrete batch: connecting one deposit and one
withdrawal to the empty store succeeds, and disconnecting the same batch
restores the empty store exactly. -/
theorem connect_block_disconnect_block_inverse_witness :
    bridgeConnectBlock sampleStore0 [⟨"sc1abc", 500000⟩]
      [⟨"aa", sampleAddr20, 1, 5⟩] [] false = .ok (true, sampleStore1) ∧
    bridgeDisconnectBlock sampleStore1 [⟨"sc1abc", 500000⟩] ["aa"] [] false =
      .ok (true, sampleStore0) :=
  ⟨by decide,
   connect_block_disconnect_block_inverse sampleStore0 sampleStore1
     [⟨"sc1abc", 500000⟩] [⟨"aa", sampleAddr20, 1, 5⟩] [] (by decide)⟩

/-- C2 counterexample: a batch in which the same outpoint "aa" is claimed
by two different withdrawals does not fail with `DoubleSpend` and does not
leave the store unchanged — the FFI HashMap marshalling collapses the
duplicate outpoint (the later record wins) and the batch is applied. -/
theorem duplicate_withdrawals_batch_applies :
    bridgeConnectBlock sampleStore0 []
      [⟨"aa", sampleAddr20, 1, 5⟩, ⟨"aa", sampleAddr20, 2, 7⟩] [] false =
      .ok (true, ⟨[], [([170], ⟨7, sampleDest, 2, 1⟩)], [], [[170]], 1⟩) ∧
    (⟨[], [([170], ⟨7, sampleDest, 2, 1⟩)], [], [[170]], 1⟩ : StateStore) ≠ sampleStore0 :=
  ⟨by decide, by decide⟩

/-- C2 (amended): a batch whose marshalled withdrawal map and refund map
share an outpoint makes the engine transaction fail with `DoubleSpend`,
which the FFI surface reports as a successful return carrying `false` with
the store unchanged; duplicate outpoints within the withdrawals list alone
(or the refunds list alone) are collapsed last-wins by the HashMap
marshalling and are not rejected. -/
theorem withdrawal_refund_conflict_rejected (st : StateStore)
    (deposits : List ffi.Output) (withdrawals : List ffi.Withdrawal)
    (refunds : List ffi.Refund) (wm : List (Outpoint × drive.Withdrawal))
    (rm : List (Outpoint × Nat)) (o : Outpoint) (jc : Bool)
    (hmw : marshalWithdrawals withdrawals = .ok wm)
    (hmr : marshalRefunds refunds = .ok rm)
    (how : o ∈ keysOf wm) (hor : o ∈ keysOf rm) :
    drive.connect_block st (marshalDeposits deposits) wm rm jc = .error .DoubleSpend ∧
    bridgeConnectBlock st deposits withdrawals refunds jc = .ok (false, st) := by
  have hinv : ¬ connectValid st wm rm := fun hv => (hv.1 o how).1 hor
  have hc : drive.connect_block st (marshalDeposits deposits) wm rm jc
      = .error .DoubleSpend := by
    unfold drive.connect_block
    rw [if_neg hinv]
  refine ⟨hc, ?_⟩
  simp only [bridgeConnectBlock, hmw, hmr, hc]

/-- Witness for the amended C2 at a concrete batch: outpoint "bb" appears
both as a withdrawal and as a refund; the FFI call returns `ok false` and
the store is unchanged. -/
theorem withdrawal_refund_conflict_rejected_witness :
    marshalWithdrawals [⟨"bb", sampleAddr20, 1, 5⟩] =
      .ok [([187], ⟨5, sampleDest, 1, 0⟩)] ∧
    bridgeConnectBlock sampleStore0 [] [⟨"bb", sampleAddr20, 1, 5⟩]
      [⟨"bb", 3⟩] false = .ok (false, sampleStore0) :=
  ⟨by decide,
   (withdrawal_refund_conflict_rejected sampleStore0 [] [⟨"bb", sampleAddr20, 1, 5⟩]
     [⟨"bb", 3⟩] [([187], ⟨5, sampleDest, 1, 0⟩)] [([187], 3)] [187] false
     (by decide) (by decide) (by decide) (by decide)).2⟩

/-- C3 counterexample: a batch on which the engine `connect_block` fails
with `DoubleSpend` is reported by the FFI `connect_block` as a successful
return carrying `false`, not as an error — the failure kind is discarded by
the `is_ok` collapse. -/
theorem engine_failure_reported_as_ok_false :
    drive.connect_block sampleStore0 [] [([204], ⟨5, sampleDest, 1, 0⟩)]
      [([204], 3)] false = .error .DoubleSpend ∧
    bridgeConnectBlock sampleStore0 [] [⟨"cc", sampleAddr20, 1, 5⟩]
      [⟨"cc", 3⟩] false = .ok (false, sampleStore0) :=
  ⟨by rfl, by decide⟩

/-- C3 (amended): every engine-level failure of the engine `connect_block`
is reported by the FFI `connect_block` as a successful return carrying
`false` with the store unchanged — the error kind is discarded at the FFI
boundary rather than propagated. -/
theorem connect_engine_error_becomes_ok_false (st : StateStore)
    (deposits : List ffi.Output) (withdrawals : List ffi.Withdrawal)
    (refunds : List ffi.Refund) (wm : List (Outpoint × drive.Withdrawal))
    (rm : List (Outpoint × Nat)) (e : EngineError) (jc : Bool)
    (hmw : marshalWithdrawals withdrawals = .ok wm)
    (hmr : marshalRefunds refunds = .ok rm)
    (hc : drive.connect_block st (marshalDeposits deposits) wm rm jc = .error e) :
    bridgeConnectBlock st deposits withdrawals refunds jc = .ok (false, st) := by
  simp only [bridgeConnectBlock, hmw, hmr, hc]

/-- Witness for the amended C3 at a concrete batch (outpoint "dd" both
withdrawn and refunded): the engine fails, the FFI call returns `ok
false`. -/
theorem connect_engine_error_becomes_ok_false_witness :
    drive.connect_block sampleStore0 [] [([221], ⟨5, sampleDest, 1, 0⟩)]
      [([221], 3)] false = .error .DoubleSpend ∧
    bridgeConnectBlock sampleStore0 [] [⟨"dd", sampleAddr20, 1, 5⟩]
      [⟨"dd", 3⟩] false = .ok (false, sampleStore0) :=
  ⟨by rfl,
   connect_engine_error_becomes_ok_false sampleStore0 [] [⟨"dd", sampleAddr20, 1, 5⟩]
     [⟨"dd", 3⟩] [([221], ⟨5, sampleDest, 1, 0⟩)] [([221], 3)] .DoubleSpend false
     (by decide) (by decide) (by rfl)⟩

/-- A well-formed 64-hex-digit hash string. -/
def sampleHash64 : String :=
  "0000000000000000000000000000000000000000000000000000000000000000"

/-- C4 counterexample: `verify_bmm` does return an error for some pair of
input strings — a main block hash that does not parse as 64 hex digits is
rejected with a parse error even though the engine verifier (here one that
always succeeds) is never consulted. -/
theorem verify_bmm_errors_on_malformed_hash :
    bridgeVerifyBmm (fun _ _ => .ok ()) "zz" sampleHash64 = .error .invalidHash := by
  rfl

/-- C4 (amended): for every pair of well-formed 64-hex-digit hash strings,
`verify_bmm` returns a boolean and never an error; every engine-level
verification failure (mismatch or lookup failure) yields `false` rather
than an error.  Malformed hash strings are rejected with a parse error. -/
theorem verify_bmm_never_errors_on_well_formed
    (engineVerify : Hash → Hash → Except drive.VerifyError Unit)
    (s1 s2 : String) (h1 h2 : Hash)
    (hp1 : parseHash s1 = some h1) (hp2 : parseHash s2 = some h2) :
    (bridgeVerifyBmm engineVerify s1 s2 = .ok true ∨
      bridgeVerifyBmm engineVerify s1 s2 = .ok false) ∧
    (∀ e, engineVerify h1 h2 = .error e →
      bridgeVerifyBmm engineVerify s1 s2 = .ok false) := by
  constructor
  · simp only [bridgeVerifyBmm, hp1, hp2]
    cases engineVerify h1 h2 with
    | ok u => exact Or.inl rfl
    | error e => exact Or.inr rfl
  · intro e he
    simp only [bridgeVerifyBmm, hp1, hp2, he]

/-- Witness for the amended C4: with an engine verifier that always reports
a mismatch, `verify_bmm` on two well-formed hash strings returns `ok
false`, not an error. -/
theorem verify_bmm_never_errors_on_well_formed_witness :
    parseHash sampleHash64 = some (List.replicate 32 0) ∧
    bridgeVerifyBmm (fun _ _ => .error .mismatch) sampleHash64 sampleHash64 =
      .ok false :=
  ⟨by decide,
   (verify_bmm_never_errors_on_well_formed (fun _ _ => .error .mismatch)
     sampleHash64 sampleHash64 (List.replicate 32 0) (List.replicate 32 0)
     (by decide) (by decide)).2 .mismatch rfl⟩

/-- C5: the inclusion height of a withdrawal is never taken from the
caller: the FFI withdrawal record carries no height field, the marshalling
hands every withdrawal to the engine with height 0, and the engine
overwrites the height with its internal counter when it applies the
batch. -/
theorem withdrawal_height_never_from_caller :
    (∀ ws m, marshalWithdrawals ws = .ok m → ∀ p ∈ m, p.2.height = 0) ∧
    (∀ (st : StateStore) ds wm rm st2,
      drive.connect_block st ds wm rm false = .ok st2 →
      ∀ p ∈ st2.withdrawals, p ∈ st.withdrawals ∨ p.2.height = st.height + 1) := by
  constructor
  · intro ws m hm
    exact marshalWithdrawalsAux_heights ws [] m hm (by simp)
  · intro st ds wm rm st2 hc p hp
    unfold drive.connect_block at hc
    by_cases hv : connectValid st wm rm
    · rw [if_pos hv] at hc
      simp only [Bool.false_eq_true, if_false, Except.ok.injEq] at hc
      subst hc
      rcases List.mem_append.mp hp with hp | hp
      · exact Or.inl hp
      · rcases List.mem_map.mp hp with ⟨q, hq, hpq⟩
        exact Or.inr (by rw [← hpq])
    · rw [if_neg hv] at hc
      exact absurd hc (by simp)

/-- Witness for C5 at a concrete batch: the marshalled withdrawal carries
height 0, and after the engine applies the batch the stored withdrawal
carries the internally assigned height 1. -/
theorem withdrawal_height_never_from_caller_witness :
    (∀ p ∈ [([170], (⟨5, sampleDest, 1, 0⟩ : drive.Withdrawal))], p.2.height = 0) ∧
    (∀ p ∈ sampleStore1.withdrawals,
      p ∈ sampleStore0.withdrawals ∨ p.2.height = sampleStore0.height + 1) :=
  ⟨withdrawal_height_never_from_caller.1 [⟨"aa", sampleAddr20, 1, 5⟩]
     [([170], ⟨5, sampleDest, 1, 0⟩)] (by decide),
   withdrawal_height_never_from_caller.2 sampleStore0 [⟨"sc1abc", 500000⟩]
     [([170], ⟨5, sampleDest, 1, 0⟩)] [] sampleStore1 (by rfl)⟩

/-- C6 counterexample: a `connect_block` call whose string input is
malformed (the outpoint "zz" is not valid hex) does not return an error:
the marshalling first reaches the 2-byte valid-hex address "abcd" of the
same withdrawal and aborts (the `copy_from_slice` panic) before the
malformed outpoint is looked at. -/
theorem malformed_outpoint_shadowed_by_abort :
    hexDecode "zz" = none ∧
    bridgeConnectBlock sampleStore0 [] [⟨"zz", "abcd", 1, 5⟩] [] false = .abort :=
  ⟨by decide, by decide⟩

/-- C6 (amended): malformed boundary strings are rejected with an error
before the engine is invoked, so no state mutation occurs — for
`attempt_bmm` (unparsable hash), `is_outpoint_spent` (invalid hex) and
`disconnect_block` (invalid hex) unconditionally, and for `connect_block`
provided every withdrawal address that is valid hex decodes to exactly 20
bytes (otherwise the marshalling aborts on the short address before it
reaches the malformed string, as in C10). -/
theorem malformed_input_rejected_before_engine :
    (∀ bmm main ch ph amount, (parseHash ch = none ∨ parseHash ph = none) →
      bridgeAttemptBmm bmm main ch ph amount = .error .invalidHash) ∧
    (∀ (st : StateStore) o, hexDecode o = none →
      bridgeIsOutpointSpent st o = .error .invalidHex) ∧
    (∀ (st : StateStore) deposits wos ros jc,
      ((∃ s ∈ wos, hexDecode s = none) ∨ (∃ s ∈ ros, hexDecode s = none)) →
      bridgeDisconnectBlock st deposits wos ros jc = .err .invalidHex) ∧
    (∀ (st : StateStore) deposits ws rs jc,
      (∀ w ∈ ws, ∀ ab, hexDecode w.main_address = some ab → ab.length = 20) →
      ((∃ w ∈ ws, hexDecode w.outpoint = none ∨ hexDecode w.main_address = none) ∨
        (∃ r ∈ rs, hexDecode r.outpoint = none)) →
      bridgeConnectBlock st deposits ws rs jc = .err .invalidHex) := by
  refine ⟨?_, ?_, ?_, ?_⟩
  · intro bmm main ch ph amount hmal
    unfold bridgeAttemptBmm
    cases hch : parseHash ch with
    | none => rfl
    | some chh =>
      rcases hmal with hmal | hmal
      · rw [hch] at hmal
        exact absurd hmal (by simp)
      · simp only [hmal]
  · intro st o ho
    unfold bridgeIsOutpointSpent
    rw [ho]
  · intro st deposits wos ros jc hmal
    by_cases hw : ∃ s ∈ wos, hexDecode s = none
    · simp only [bridgeDisconnectBlock, decodeOutpoints_err wos hw]
    · rcases hmal with hmal | hmal
      · exact absurd hmal hw
      · have hdec : ∀ s ∈ wos, ∃ k, hexDecode s = some k := by
          intro s hs
          cases hd : hexDecode s with
          | none => exact absurd ⟨s, hs, hd⟩ hw
          | some k => exact ⟨k, rfl⟩
        obtain ⟨os, hos, _⟩ := decodeOutpoints_ok wos hdec
        simp only [bridgeDisconnectBlock, hos, decodeOutpoints_err ros hmal]
  · intro st deposits ws rs jc hprov hmal
    by_cases hw : ∃ w ∈ ws, hexDecode w.outpoint = none ∨ hexDecode w.main_address = none
    · have := marshalWithdrawalsAux_err ws hprov hw []
      simp only [bridgeConnectBlock, marshalWithdrawals, this]
    · rcases hmal with hmal | hmal
      · exact absurd hmal hw
      · have hdec : ∀ w ∈ ws, (∃ ab, hexDecode w.main_address = some ab ∧ ab.length = 20) ∧
            ∃ k, hexDecode w.outpoint = some k := by
          intro w hwmem
          constructor
          · cases hd : hexDecode w.main_address with
            | none => exact absurd ⟨w, hwmem, Or.inr hd⟩ hw
            | some ab => exact ⟨ab, rfl, hprov w hwmem ab hd⟩
          · cases hd : hexDecode w.outpoint with
            | none => exact absurd ⟨w, hwmem, Or.inl hd⟩ hw
            | some k => exact ⟨k, rfl⟩
        obtain ⟨m, hm⟩ := marshalWithdrawalsAux_ok_of_decodes ws [] hdec
        have hr := marshalRefundsAux_err rs hmal []
        simp only [bridgeConnectBlock, marshalWithdrawals, marshalRefunds, hm, hr]

/-- Witness for the amended C6: a malformed hash string is rejected by
`attempt_bmm`, a malformed outpoint by `is_outpoint_spent` and
`disconnect_block`, and a malformed refund outpoint by `connect_block`
whose withdrawal list satisfies the no-short-address proviso vacuously. -/
theorem malformed_input_rejected_before_engine_witness :
    bridgeAttemptBmm none ⟨[0], [1], none⟩ "zz" sampleHash64 7 = .error .invalidHash ∧
    bridgeIsOutpointSpent sampleStore0 "zz" = .error .invalidHex ∧
    bridgeDisconnectBlock sampleStore0 [] ["zz"] [] false = .err .invalidHex ∧
    bridgeConnectBlock sampleStore0 [] [] [⟨"zz", 3⟩] false = .err .invalidHex :=
  ⟨malformed_input_rejected_before_engine.1 none ⟨[0], [1], none⟩ "zz" sampleHash64 7
     (Or.inl (by decide)),
   malformed_input_rejected_before_engine.2.1 sampleStore0 "zz" (by decide),
   malformed_input_rejected_before_engine.2.2.1 sampleStore0 [] ["zz"] [] false
     (Or.inl ⟨"zz", by decide, by decide⟩),
   malformed_input_rejected_before_engine.2.2.2 sampleStore0 [] [] [⟨"zz", 3⟩] false
     (by simp) (Or.inr ⟨⟨"zz", 3⟩, by decide, by decide⟩)⟩

/-- Every codec character round-trips through its value. -/
theorem addrCharVal_addrChar : ∀ n < 16, addrCharVal (addrChar n) = some n := by
  decide

/-- The spec-modelled address codec round-trips on byte payloads. -/
theorem decodeAddrChars_encode (payload : List Nat) (hb : ∀ b ∈ payload, b < 256) :
    decodeAddrChars (encodeMainchainAddress payload).data = some payload := by
  induction payload with
  | nil => rfl
  | cons b rest ih =>
    have hb256 : b < 256 := hb b (List.mem_cons_self b rest)
    have h1 : addrCharVal (addrChar (b / 16 % 16)) = some (b / 16 % 16) :=
      addrCharVal_addrChar _ (Nat.mod_lt _ (by norm_num))
    have h2 : addrCharVal (addrChar (b % 16)) = some (b % 16) :=
      addrCharVal_addrChar _ (Nat.mod_lt _ (by norm_num))
    show decodeAddrChars (addrChar (b / 16 % 16) :: addrChar (b % 16) ::
      (encodeMainchainAddress rest).data) = some (b :: rest)
    unfold decodeAddrChars
    rw [h1, h2, ih (fun b2 hb2 => hb b2 (List.mem_cons_of_mem b hb2))]
    have hdiv : b / 16 % 16 = b / 16 :=
      Nat.mod_eq_of_lt (Nat.div_lt_of_lt_mul (by omega))
    rw [hdiv]
    show some ((16 * (b / 16) + b % 16) :: rest) = some (b :: rest)
    rw [Nat.div_add_mod b 16]

/-- C7: `extract_mainchain_address_bytes` fails with `InvalidAddress` on
the malformed string "invalid!!", and for every well-formed address
carrying a 20-byte payload it returns exactly those 20 payload bytes. -/
theorem extract_mainchain_address_bytes_spec :
    extract_mainchain_address_bytes "invalid!!" = .error .invalidAddress ∧
    ∀ payload, payload.length = 20 → (∀ b ∈ payload, b < 256) →
      extract_mainchain_address_bytes (encodeMainchainAddress payload) =
        .ok payload := by
  refine ⟨by rfl, ?_⟩
  intro payload hlen hb
  unfold extract_mainchain_address_bytes
  rw [decodeAddrChars_encode payload hb]

/-- Witness for C7 at a concrete 20-byte payload. -/
theorem extract_mainchain_address_bytes_spec_witness :
    extract_mainchain_address_bytes (encodeMainchainAddress (List.replicate 20 1)) =
      .ok (List.replicate 20 1) :=
  extract_mainchain_address_bytes_spec.2 (List.replicate 20 1) (by decide) (by decide)

/-- C9: after a successful `attempt_bmm`, polling `confirm_bmm` while the
tip still equals the anchor yields `Pending`; against any later view the
result is `Succeded` exactly when the tip advanced onto the anchor with a
commitment equal to the submitted critical hash, and `Failed` whenever the
tip advanced (or reorganized) without such a matching commitment. -/
theorem bmm_attempt_confirm_state_machine (bmm : Option BmmAttempt)
    (main m2 : MainView) (ch ph : Hash) (amount : Nat) (a : BmmAttempt)
    (h : drive.attempt_bmm bmm main ch ph amount = .ok (some a)) :
    drive.confirm_bmm a main = .Pending ∧
    (drive.confirm_bmm a m2 = .Succeded ↔
      (m2.tip ≠ ph ∧ m2.tipPred = ph ∧ m2.tipCommitment = some ch)) ∧
    ((m2.tip ≠ ph ∧ ¬(m2.tipPred = ph ∧ m2.tipCommitment = some ch)) →
      drive.confirm_bmm a m2 = .Failed) := by
  unfold drive.attempt_bmm at h
  by_cases hp : ph = main.tip
  · rw [if_pos hp] at h
    simp only [Except.ok.injEq, Option.some.injEq] at h
    subst h
    refine ⟨?_, ?_, ?_⟩
    · unfold drive.confirm_bmm
      rw [if_pos hp.symm]
    · unfold drive.confirm_bmm
      by_cases h1 : m2.tip = ph
      · simp [h1]
      · rw [if_neg h1]
        by_cases h2 : m2.tipPred = ph ∧ m2.tipCommitment = some ch
        · simp [h2, h1]
        · simp [h2, h1]
    · intro hfail
      unfold drive.confirm_bmm
      rw [if_neg hfail.1, if_neg hfail.2]
  · rw [if_neg hp] at h
    exact absurd h (by simp)

/-- Witness for C9 at concrete hashes: the attempt on tip `[0]` with
critical hash `[2]` is pending while the tip is unchanged, succeeds against
a tip anchored on `[0]` committing `[2]`, and fails against a reorganized
tip. -/
theorem bmm_attempt_confirm_state_machine_witness :
    drive.confirm_bmm ⟨[2], [0]⟩ ⟨[0], [9], none⟩ = .Pending ∧
    (drive.confirm_bmm ⟨[2], [0]⟩ ⟨[1], [0], some [2]⟩ = .Succeded ↔
      (([1] : Hash) ≠ [0] ∧ ([0] : Hash) = [0] ∧ some [2] = some ([2] : Hash))) ∧
    ((([1] : Hash) ≠ [0] ∧ ¬(([7] : Hash) = [0] ∧ some [2] = some ([2] : Hash))) →
      drive.confirm_bmm ⟨[2], [0]⟩ ⟨[1], [7], some [2]⟩ = .Failed) :=
  ⟨(bmm_attempt_confirm_state_machine none ⟨[0], [9], none⟩ ⟨[1], [0], some [2]⟩
      [2] [0] 11 ⟨[2], [0]⟩ (by rfl)).1,
   (bmm_attempt_confirm_state_machine none ⟨[0], [9], none⟩ ⟨[1], [0], some [2]⟩
      [2] [0] 11 ⟨[2], [0]⟩ (by rfl)).2.1,
   (bmm_attempt_confirm_state_machine none ⟨[0], [9], none⟩ ⟨[1], [7], some [2]⟩
      [2] [0] 11 ⟨[2], [0]⟩ (by rfl)).2.2⟩

/-- C10 counterexample: a call that does contain a withdrawal whose
main_address is valid hex of length 2 (not 20) nevertheless returns an
error instead of aborting, because an earlier withdrawal in the list fails
hex decoding first. -/
theorem short_address_after_malformed_entry_errors :
    bridgeConnectBlock sampleStore0 []
      [⟨"aa", "zz", 1, 5⟩, ⟨"bb", "abcd", 2, 7⟩] [] false = .err .invalidHex := by
  decide

/-- C10 (amended): `connect_block` aborts (the `copy_from_slice` panic)
instead of returning an `InvalidAddress` error whenever the withdrawal
marshalling reaches a withdrawal whose main_address is valid hex of a
decoded length other than 20 — that is, whenever every earlier withdrawal
in the list decodes cleanly. -/
theorem connect_block_aborts_on_short_address (st : StateStore)
    (deposits : List ffi.Output) (pre post : List ffi.Withdrawal)
    (w : ffi.Withdrawal) (refunds : List ffi.Refund) (jc : Bool) (ab : List Nat)
    (hpre : ∀ w2 ∈ pre, (∃ ab2, hexDecode w2.main_address = some ab2 ∧ ab2.length = 20) ∧
      ∃ k, hexDecode w2.outpoint = some k)
    (ha : hexDecode w.main_address = some ab) (hl : ab.length ≠ 20) :
    bridgeConnectBlock st deposits (pre ++ w :: post) refunds jc = .abort := by
  have habort := marshalWithdrawalsAux_abort pre w post ab hpre ha hl []
  simp only [bridgeConnectBlock, marshalWithdrawals, habort]

/-- Witness for the amended C10: a first-position withdrawal with the
2-byte valid-hex address "abcd" makes `connect_block` abort. -/
theorem connect_block_aborts_on_short_address_witness :
    bridgeConnectBlock sampleStore0 [] [⟨"aa", "abcd", 1, 5⟩] [] false = .abort :=
  connect_block_aborts_on_short_address sampleStore0 [] [] []
    ⟨"aa", "abcd", 1, 5⟩ [] false [171, 205] (by simp) (by decide) (by decide)

end DrivechainBridge
